import Mathlib

/-!
# Verification of the datapizza-ai workflow execution engine

Shallow embedding of `visual-editor/backend/app` (runtime/loader.py,
executor.py, run_manager.py) and proofs of the spec's claims about it.

Python values are modelled by the inductive `PyVal`; Python dicts are
insertion-ordered association lists; Python exceptions become `Except`.
-/

namespace Datapizza

/-- Model of a Python runtime value, as far as the loader inspects it.
Objects that expose a conversion method (`dataclasses.asdict`, `.dict()`,
`.model_dump()`, `._asdict()`) are modelled by a constructor carrying the
value that conversion returns; a plain object with a `__dict__` carries its
attribute mapping; anything else carries its `str()` rendering. -/
inductive PyVal where
  | str (s : String)
  | bytes (b : List Nat)
  | int (n : Int)
  | float (repr : String)
  | bool (b : Bool)
  | none
  | dict (entries : List (PyVal × PyVal))
  | list (items : List PyVal)
  | dataclassObj (image : PyVal)
  | dictMethodObj (image : PyVal)
  | modelDumpObj (image : PyVal)
  | asdictObj (image : PyVal)
  | attrObj (fields : List (String × PyVal))
  | other (repr : String)
  deriving Repr

/-- Model of Python `str()` as used to coerce mapping keys. Only the
behaviour on strings (identity) matters for the proofs; the remaining
cases are an abstraction of the interpreter's rendering. -/
def pyStr : PyVal → String
  | .str s => s
  | .int n => toString n
  | .bool b => if b then "True" else "False"
  | .none => "None"
  | .float r => r
  | .bytes _ => "<bytes>"
  | .dict _ => "<dict>"
  | .list _ => "<list>"
  | .dataclassObj _ => "<dataclass>"
  | .dictMethodObj _ => "<object>"
  | .modelDumpObj _ => "<object>"
  | .asdictObj _ => "<object>"
  | .attrObj _ => "<object>"
  | .other r => r

mutual

/-- Embedding of `loader.normalise_result`: best-effort conversion of
component results into JSON-serialisable objects. The branch order follows
the source: Mapping, non-text Sequence, dataclass, `.dict()`,
`.model_dump()`, `._asdict()`, primitives, `__dict__`, `str()` fallback. -/
def normaliseResult : PyVal → PyVal
  | .dict entries => .dict (normaliseEntries entries)
  | .list items => .list (normaliseItems items)
  | .dataclassObj image => normaliseResult image
  | .dictMethodObj image => normaliseResult image
  | .modelDumpObj image => normaliseResult image
  | .asdictObj image => normaliseResult image
  | .str s => .str s
  | .bytes b => .bytes b
  | .int n => .int n
  | .float r => .float r
  | .bool b => .bool b
  | .none => .none
  | .attrObj fields => .dict (normaliseAttrs fields)
  | .other r => .str r

/-- `{str(key): normalise_result(value) for key, value in result.items()}` -/
def normaliseEntries : List (PyVal × PyVal) → List (PyVal × PyVal)
  | [] => []
  | (k, v) :: rest => (.str (pyStr k), normaliseResult v) :: normaliseEntries rest

/-- `[normalise_result(value) for value in result]` -/
def normaliseItems : List PyVal → List PyVal
  | [] => []
  | v :: rest => normaliseResult v :: normaliseItems rest

/-- `{key: normalise_result(value) for key, value in vars(result).items()
     if not key.startswith("_")}` -/
def normaliseAttrs : List (String × PyVal) → List (PyVal × PyVal)
  | [] => []
  | (k, v) :: rest =>
      if k.startsWith "_" then normaliseAttrs rest
      else (.str k, normaliseResult v) :: normaliseAttrs rest

end

mutual

theorem normaliseResult_idem : ∀ v, normaliseResult (normaliseResult v) = normaliseResult v
  | .dict entries => by
      simp only [normaliseResult, normaliseEntries_idem entries]
  | .list items => by
      simp only [normaliseResult, normaliseItems_idem items]
  | .dataclassObj image => normaliseResult_idem image
  | .dictMethodObj image => normaliseResult_idem image
  | .modelDumpObj image => normaliseResult_idem image
  | .asdictObj image => normaliseResult_idem image
  | .str s => rfl
  | .bytes b => rfl
  | .int n => rfl
  | .float r => rfl
  | .bool b => rfl
  | .none => rfl
  | .attrObj fields => by
      simp only [normaliseResult, normaliseAttrs_idem fields]
  | .other r => rfl

theorem normaliseEntries_idem :
    ∀ entries, normaliseEntries (normaliseEntries entries) = normaliseEntries entries
  | [] => rfl
  | (k, v) :: rest => by
      simp only [normaliseEntries, pyStr, normaliseResult_idem v, normaliseEntries_idem rest]

theorem normaliseItems_idem :
    ∀ items, normaliseItems (normaliseItems items) = normaliseItems items
  | [] => rfl
  | v :: rest => by
      simp only [normaliseItems, normaliseResult_idem v, normaliseItems_idem rest]

theorem normaliseAttrs_idem :
    ∀ fields, normaliseEntries (normaliseAttrs fields) = normaliseAttrs fields
  | [] => rfl
  | (k, v) :: rest => by
      by_cases h : k.startsWith "_"
      · simp only [normaliseAttrs, h, if_true, normaliseAttrs_idem rest]
      · simp [normaliseAttrs, h, normaliseEntries, pyStr,
          normaliseResult_idem v, normaliseAttrs_idem rest]

end

/-- C5: `normalise_result` is total (it is a Lean `def`, defined and
terminating on every `PyVal`, with no failing branch) and idempotent:
applying it to a value it has already produced returns an equal value. -/
theorem c5_normalise_result_total_idempotent :
    ∀ v : PyVal, normaliseResult (normaliseResult v) = normaliseResult v :=
  normaliseResult_idem

/-! ## loader.normalise_parameters -/

/-- Embedding of `loader.normalise_parameters`: `None` becomes the empty
mapping, a `Mapping` has its keys coerced with `str`, anything else raises
`ComponentInvocationError`. -/
def normaliseParameters : PyVal → Except String (List (String × PyVal))
  | .none => .ok []
  | .dict entries => .ok (entries.map fun kv => (pyStr kv.1, kv.2))
  | _ => .error "component parameters must be expressed as a mapping"

/-- C10: `normalise_parameters` returns the empty mapping for an absent
(`None`) payload, a string-keyed dict for a mapping payload, and raises
`ComponentInvocationError` for every other payload. -/
theorem c10_normalise_parameters (p : PyVal) :
    (p = .none → normaliseParameters p = .ok []) ∧
    (∀ entries, p = .dict entries →
        normaliseParameters p = .ok (entries.map fun kv => (pyStr kv.1, kv.2))) ∧
    (p ≠ .none → (∀ entries, p ≠ .dict entries) →
        normaliseParameters p =
          .error "component parameters must be expressed as a mapping") := by
  refine ⟨fun h => by subst h; rfl, fun entries h => by subst h; rfl, fun h1 h2 => ?_⟩
  cases p with
  | none => exact absurd rfl h1
  | dict entries => exact absurd rfl (h2 entries)
  | str s => rfl
  | bytes b => rfl
  | int n => rfl
  | float r => rfl
  | bool b => rfl
  | list l => rfl
  | dataclassObj i => rfl
  | dictMethodObj i => rfl
  | modelDumpObj i => rfl
  | asdictObj i => rfl
  | attrObj f => rfl
  | other r => rfl

/-- Witness for C10 at concrete payloads. -/
theorem c10_normalise_parameters_witness :
    normaliseParameters (.int 3) =
      .error "component parameters must be expressed as a mapping" :=
  (c10_normalise_parameters (.int 3)).2.2
    (fun h => PyVal.noConfusion h) (fun _ h => PyVal.noConfusion h)

/-! ## loader.resolve_component -/

/-- The argument of `resolve_component`: either an actual string or some
non-string object (whose truthiness is irrelevant, both branches of
`not path or not isinstance(path, str)` reject it). -/
inductive PyArg where
  | pyStr (s : String)
  | nonString (truthy : Bool)

/-- The import environment: `importModule m` models
`importlib.import_module(m)`, returning the module's attribute table or
the rendered exception message; `some`/`Option.none` on the table models
`getattr` success or `AttributeError`. -/
structure ModuleEnv where
  importModule : String → Except String (String → Option PyVal)

/-- Python `str.startswith`, computed on the underlying character list. -/
def strStartsWith (s p : String) : Bool := List.isPrefixOf p.data s.data

/-- Split a character list at its last `'.'`, if any: returns the
characters before and after that dot. -/
def rpartitionCharList : List Char → Option (List Char × List Char)
  | [] => Option.none
  | c :: rest =>
      match rpartitionCharList rest with
      | Option.some (before, after) => Option.some (c :: before, after)
      | Option.none => if c = '.' then Option.some ([], rest) else Option.none

/-- Model of Python `path.rpartition(".")`, dropping the middle component:
split at the last dot; when there is no dot the head part is empty. -/
def rpartitionDot (s : String) : String × String :=
  match rpartitionCharList s.data with
  | Option.some (before, after) => (⟨before⟩, ⟨after⟩)
  | Option.none => ("", s)

/-- Embedding of `loader.resolve_component`. -/
def resolveComponent (env : ModuleEnv) (path : PyArg) : Except String PyVal :=
  match path with
  | .nonString _ => .error "component path must be a non-empty string"
  | .pyStr s =>
      if s = "" then .error "component path must be a non-empty string"
      else if ¬ strStartsWith s "datapizza." then
        .error "component resolution is restricted to the 'datapizza' namespace"
      else
        let mp := (rpartitionDot s).1
        let attr := (rpartitionDot s).2
        if mp = "" ∨ attr = "" then
          .error ("'" ++ s ++ "' is not a valid fully-qualified component reference")
        else
          match env.importModule mp with
          | .error exc => .error ("unable to import module '" ++ mp ++ "': " ++ exc)
          | .ok attrs =>
              match attrs attr with
              | Option.none =>
                  .error ("module '" ++ mp ++ "' does not expose attribute '" ++ attr ++ "'")
              | Option.some obj => .ok obj

/-- C6: `resolve_component` raises `ComponentLoadError` for empty or
non-string references, for references outside the `datapizza.` namespace,
and for references with an empty module path or attribute part; import or
attribute failures produce an error message naming the missing module or
attribute; in all other cases the resolved object is returned, and a
rejected reference never yields a value. -/
theorem c6_resolve_component (env : ModuleEnv) :
    (∀ t, resolveComponent env (.nonString t) =
        .error "component path must be a non-empty string") ∧
    (resolveComponent env (.pyStr "") =
        .error "component path must be a non-empty string") ∧
    (∀ s, s ≠ "" → ¬ strStartsWith s "datapizza." →
        resolveComponent env (.pyStr s) =
          .error "component resolution is restricted to the 'datapizza' namespace") ∧
    (∀ s, strStartsWith s "datapizza." →
        ((rpartitionDot s).1 = "" ∨ (rpartitionDot s).2 = "") →
        resolveComponent env (.pyStr s) =
          .error ("'" ++ s ++ "' is not a valid fully-qualified component reference")) ∧
    (∀ s mp attr e, strStartsWith s "datapizza." → rpartitionDot s = (mp, attr) →
        mp ≠ "" → attr ≠ "" → env.importModule mp = .error e →
        resolveComponent env (.pyStr s) =
          .error ("unable to import module '" ++ mp ++ "': " ++ e)) ∧
    (∀ s mp attr attrs, strStartsWith s "datapizza." → rpartitionDot s = (mp, attr) →
        mp ≠ "" → attr ≠ "" → env.importModule mp = .ok attrs →
        attrs attr = Option.none →
        resolveComponent env (.pyStr s) =
          .error ("module '" ++ mp ++ "' does not expose attribute '" ++ attr ++ "'")) ∧
    (∀ s mp attr attrs obj, strStartsWith s "datapizza." → rpartitionDot s = (mp, attr) →
        mp ≠ "" → attr ≠ "" → env.importModule mp = .ok attrs →
        attrs attr = Option.some obj →
        resolveComponent env (.pyStr s) = .ok obj) := by
  have hne : ∀ s : String, strStartsWith s "datapizza." → s ≠ "" := by
    intro s hs h
    subst h
    exact absurd hs (by decide)
  refine ⟨fun _ => rfl, rfl, ?_, ?_, ?_, ?_, ?_⟩
  · intro s hs hpre
    simp [resolveComponent, hs, hpre]
  · intro s hpre hempty
    simp [resolveComponent, hne s hpre, hpre, hempty]
  · intro s mp attr e hpre hpart hmp hattr himp
    simp [resolveComponent, hne s hpre, hpre, hpart, hmp, hattr, himp]
  · intro s mp attr attrs hpre hpart hmp hattr himp hget
    simp [resolveComponent, hne s hpre, hpre, hpart, hmp, hattr, himp, hget]
  · intro s mp attr attrs obj hpre hpart hmp hattr himp hget
    simp [resolveComponent, hne s hpre, hpre, hpart, hmp, hattr, himp, hget]

/-- A one-module import environment used by the C6 witness. -/
def witnessEnv : ModuleEnv where
  importModule := fun m =>
    if m = "datapizza.mod" then
      .ok (fun a => if a = "attr" then Option.some (.str "obj") else Option.none)
    else .error "No module named"

/-- Witness for C6: a well-formed reference resolves to its object. -/
theorem c6_resolve_component_witness :
    resolveComponent witnessEnv (.pyStr "datapizza.mod.attr") = .ok (.str "obj") := by
  refine (c6_resolve_component witnessEnv).2.2.2.2.2.2 "datapizza.mod.attr"
    "datapizza.mod" "attr"
    (fun a => if a = "attr" then Option.some (.str "obj") else Option.none)
    (.str "obj") (by decide) (by decide) (by decide) (by decide) rfl rfl

/-! ## loader.build_component_call_kwargs -/

/-- One declared parameter of the callable's signature: its name and
whether it is the `**kwargs` catch-all (`inspect.Parameter.VAR_KEYWORD`). -/
structure SigParam where
  name : String
  isVarKeyword : Bool

/-- Python `name in kwargs` for the insertion-ordered kwargs dict. -/
def hasKey (kwargs : List (String × PyVal)) (k : String) : Bool :=
  kwargs.any (fun kv => kv.1 == k)

/-- A Python dict of string keys, as a `PyVal`. -/
def dictVal (m : List (String × PyVal)) : PyVal :=
  .dict (m.map fun kv => (.str kv.1, kv.2))

/-- The `{"parameters": parameters, "inputs": inputs}` literal bound to
the `context`/`payload` slots. -/
def contextVal (parameters inputs : List (String × PyVal)) : PyVal :=
  .dict [(.str "parameters", dictVal parameters), (.str "inputs", dictVal inputs)]

/-- The remaining-parameter-keys loop of `build_component_call_kwargs`:
bind a parameter if the callable declares a matching named slot or accepts
a var-keyword catch-all, skipping keys already bound. -/
def bindRemaining (names : List String) (acceptsVarKeyword : Bool)
    (parameters : List (String × PyVal)) (kwargs : List (String × PyVal)) :
    List (String × PyVal) :=
  parameters.foldl
    (fun kw kv =>
      if hasKey kw kv.1 then kw
      else if names.contains kv.1 || acceptsVarKeyword then kw ++ [(kv.1, kv.2)]
      else kw)
    kwargs

/-- Embedding of `loader.build_component_call_kwargs`: builds the keyword
arguments for the callable from its declared parameter names, the node's
parameters map and the upstream inputs map. -/
def buildComponentCallKwargs (sig : List SigParam) (parameters inputs : List (String × PyVal)) :
    Except String (List (String × PyVal)) :=
  let names := sig.map (·.name)
  let acceptsVarKeyword := sig.any (·.isVarKeyword)
  let kwargs0 : List (String × PyVal) := []
  let kwargs1 :=
    if names.contains "context" then kwargs0 ++ [("context", contextVal parameters inputs)]
    else kwargs0
  let kwargs2 :=
    if names.contains "payload" && !hasKey kwargs1 "payload" then
      kwargs1 ++ [("payload", contextVal parameters inputs)]
    else kwargs1
  let kwargs3 :=
    if names.contains "inputs" then kwargs2 ++ [("inputs", dictVal inputs)] else kwargs2
  let kwargs4 :=
    if names.contains "upstream" && !hasKey kwargs3 "upstream" then
      kwargs3 ++ [("upstream", dictVal inputs)]
    else kwargs3
  let kwargs5 :=
    if names.contains "parameters" then kwargs4 ++ [("parameters", dictVal parameters)]
    else kwargs4
  let kwargs6 := bindRemaining names acceptsVarKeyword parameters kwargs5
  if kwargs6.isEmpty && !parameters.isEmpty && sig.isEmpty then
    .error "component does not accept parameters but configuration was provided"
  else .ok kwargs6

/-- The binding policy exactly as the claim states it: the conventional
slots in priority order, then the remaining parameter keys matched by name
or accepted by a var-keyword catch-all; `UnexpectedParameters` exactly when
parameters were supplied, the callable declares no slots at all, and
nothing was bound. -/
def bindingPolicySpec (sig : List SigParam) (parameters inputs : List (String × PyVal)) :
    Except String (List (String × PyVal)) :=
  let names := sig.map (·.name)
  let acceptsVarKeyword := sig.any (·.isVarKeyword)
  let slot1 : List (String × PyVal) :=
    if names.contains "context" then [] ++ [("context", contextVal parameters inputs)] else []
  let slot2 :=
    if names.contains "payload" && !hasKey slot1 "payload" then
      slot1 ++ [("payload", contextVal parameters inputs)]
    else slot1
  let slot3 :=
    if names.contains "inputs" then slot2 ++ [("inputs", dictVal inputs)] else slot2
  let slot4 :=
    if names.contains "upstream" && !hasKey slot3 "upstream" then
      slot3 ++ [("upstream", dictVal inputs)]
    else slot3
  let slot5 :=
    if names.contains "parameters" then slot4 ++ [("parameters", dictVal parameters)]
    else slot4
  let bound := bindRemaining names acceptsVarKeyword parameters slot5
  if !parameters.isEmpty && sig.isEmpty && bound.isEmpty then
    .error "component does not accept parameters but configuration was provided"
  else .ok bound

/-- With an empty signature no slot matches and the remaining-keys loop
accepts nothing, so nothing is ever bound. -/
theorem bindRemaining_nil_sig (parameters : List (String × PyVal)) :
    bindRemaining [] false parameters [] = [] := by
  induction parameters with
  | nil => rfl
  | cons kv rest ih =>
      simp only [bindRemaining, List.foldl_cons, hasKey, List.any_nil,
        List.contains_nil, Bool.false_or, Bool.false_eq_true, if_false] at ih ⊢
      exact ih

/-- C4: `build_component_call_kwargs` is a function of exactly the declared
parameter names (with their var-keyword flags), the parameters map and the
inputs map (it is a pure Lean function of those three arguments); its
bindings follow the claimed slot policy; and it raises
`UnexpectedParameters` exactly when parameters were supplied, the callable
declares no slots at all, and nothing was bound -- equivalently, exactly
when parameters were supplied and the callable declares no slots. -/
theorem c4_build_component_call_kwargs
    (sig : List SigParam) (parameters inputs : List (String × PyVal)) :
    buildComponentCallKwargs sig parameters inputs =
      bindingPolicySpec sig parameters inputs ∧
    (buildComponentCallKwargs sig parameters inputs =
        .error "component does not accept parameters but configuration was provided" ↔
      parameters ≠ [] ∧ sig = []) := by
  constructor
  · simp only [buildComponentCallKwargs, bindingPolicySpec]
    rw [show ∀ a b c : Bool, (a && b && c) = (b && c && a) from by decide]
  · unfold buildComponentCallKwargs
    cases sig with
    | cons p rest =>
        simp only [List.isEmpty_cons, Bool.and_false, Bool.false_eq_true, if_false]
        constructor
        · intro h
          exact absurd h (by simp)
        · rintro ⟨-, h⟩
          exact absurd h (by simp)
    | nil =>
        cases parameters with
        | nil => simp
        | cons kv rest =>
            simp only [List.map_nil, List.any_nil]
            rw [show (if ([] : List String).contains "context" = true then
                  ([] : List (String × PyVal)) ++ [("context", contextVal (kv :: rest) inputs)]
                  else []) = [] from by simp]
            simp [bindRemaining_nil_sig]

/-! ## run_manager.WorkflowRunStore logs -/

/-- One `WorkflowRunLogEntry` of a run record (the generated `id` string
is irrelevant to the claims and omitted). -/
structure LogEntry where
  sequence : Int
  timestamp : String
  message : String
  level : String
  nodeId : Option String
  deriving Repr

/-- The log-related fields of a `_RunRecord`: the append-only `logs` list
and the `next_sequence` counter. -/
structure LogState where
  logs : List LogEntry
  nextSequence : Int
  deriving Repr

/-- A fresh `_RunRecord` starts with no logs and `next_sequence = 0`. -/
def initialLogState : LogState := ⟨[], 0⟩

/-- The payload of one `_append_log` call. -/
structure LogMsg where
  timestamp : String
  message : String
  level : String
  nodeId : Option String

/-- Embedding of `WorkflowRunStore._append_log` on one run record:
increment `next_sequence` and append an entry carrying it. -/
def appendLog (st : LogState) (m : LogMsg) : LogState :=
  let seq := st.nextSequence + 1
  { logs := st.logs ++ [⟨seq, m.timestamp, m.message, m.level, m.nodeId⟩],
    nextSequence := seq }

/-- A run record's log state after a sequence of `_append_log` calls. -/
def applyAppends (st : LogState) (ms : List LogMsg) : LogState :=
  ms.foldl appendLog st

/-- Embedding of `WorkflowRunStore.get_logs` on one run record: the
entries with `sequence > after` (default cursor `-1`), plus `nextCursor =
next_sequence`. -/
def getLogs (st : LogState) (after : Option Int) : List LogEntry × Int :=
  let start := after.getD (-1)
  (st.logs.filter (fun log => decide (start < log.sequence)), st.nextSequence)

/-- Invariant of a run record's log state: sequences are strictly
increasing, bounded by `next_sequence`, `next_sequence` is `0` on an empty
log and is attained by some entry otherwise. -/
def GoodLog (st : LogState) : Prop :=
  (st.logs.map (·.sequence)).Pairwise (· < ·) ∧
  (∀ e ∈ st.logs, e.sequence ≤ st.nextSequence) ∧
  (st.logs = [] → st.nextSequence = 0) ∧
  (st.logs ≠ [] → ∃ e ∈ st.logs, e.sequence = st.nextSequence)

theorem goodLog_initial : GoodLog initialLogState := by
  refine ⟨by simp [initialLogState], by simp [initialLogState],
    fun _ => rfl, fun h => absurd rfl h⟩

theorem goodLog_append (st : LogState) (m : LogMsg) (h : GoodLog st) :
    GoodLog (appendLog st m) := by
  obtain ⟨hpw, hle, -, -⟩ := h
  refine ⟨?_, ?_, ?_, ?_⟩
  · simp only [appendLog, List.map_append, List.map_cons, List.map_nil]
    rw [List.pairwise_append]
    refine ⟨hpw, by simp, ?_⟩
    intro a ha b hb
    simp only [List.mem_map] at ha
    obtain ⟨e, he, rfl⟩ := ha
    simp only [List.mem_singleton, List.map_cons, List.map_nil,
      List.mem_cons, List.not_mem_nil, or_false] at hb
    subst hb
    exact lt_of_le_of_lt (hle e he) (by omega)
  · intro e he
    simp only [appendLog, List.mem_append, List.mem_singleton] at he
    simp only [appendLog]
    rcases he with he | he
    · exact le_trans (hle e he) (by omega)
    · subst he; rfl
  · intro h
    simp [appendLog] at h
  · intro _
    refine ⟨⟨st.nextSequence + 1, m.timestamp, m.message, m.level, m.nodeId⟩, ?_, rfl⟩
    simp [appendLog]

theorem goodLog_applyAppends (st : LogState) (ms : List LogMsg) (h : GoodLog st) :
    GoodLog (applyAppends st ms) := by
  induction ms generalizing st with
  | nil => exact h
  | cons m rest ih => exact ih (appendLog st m) (goodLog_append st m h)

/-- C7: for a run record reachable by any sequence of appends, `get_logs`
with cursor `c` returns exactly the entries with `sequence > c`, in
ascending (strictly increasing) sequence order; `nextCursor` is the
highest sequence assigned so far (`0` when no log has been appended); and
log sequences are strictly increasing across appends. -/
theorem c7_get_logs_cursor (ms : List LogMsg) (c : Int) :
    (∀ e, e ∈ (getLogs (applyAppends initialLogState ms) (Option.some c)).1 ↔
        e ∈ (applyAppends initialLogState ms).logs ∧ c < e.sequence) ∧
    (((getLogs (applyAppends initialLogState ms) (Option.some c)).1.map
        (·.sequence)).Pairwise (· < ·)) ∧
    (((applyAppends initialLogState ms).logs.map (·.sequence)).Pairwise (· < ·)) ∧
    (∀ e ∈ (applyAppends initialLogState ms).logs,
        e.sequence ≤ (getLogs (applyAppends initialLogState ms) (Option.some c)).2) ∧
    ((applyAppends initialLogState ms).logs = [] →
        (getLogs (applyAppends initialLogState ms) (Option.some c)).2 = 0) ∧
    ((applyAppends initialLogState ms).logs ≠ [] →
        ∃ e ∈ (applyAppends initialLogState ms).logs,
          e.sequence = (getLogs (applyAppends initialLogState ms) (Option.some c)).2) := by
  obtain ⟨hpw, hle, hnil, hmax⟩ := goodLog_applyAppends initialLogState ms goodLog_initial
  refine ⟨?_, ?_, hpw, hle, hnil, hmax⟩
  · intro e
    simp [getLogs, and_comm]
  · simp only [getLogs]
    exact List.Pairwise.sublist (List.Sublist.map _ (List.filter_sublist _)) hpw


/-- Witness for C7 at the empty log (cursor result is `0`). -/
theorem c7_get_logs_cursor_witness :
    (getLogs (applyAppends initialLogState []) (Option.some 0)).2 = 0 :=
  (c7_get_logs_cursor [] 0).2.2.2.2.1 rfl

/-! ## executor.DatapizzaWorkflowExecutor: the drive loop -/

/-- A workflow node as the executor reads it: its id, its kind
(`input`/`task`/`output`) and its optional `data` dict. -/
structure NodeDef where
  id : String
  kind : String
  data : Option (List (String × PyVal))
  deriving Repr

/-- Python `dict.get(k)` on a string-keyed dict. -/
def lookupKey (m : List (String × PyVal)) (k : String) : Option PyVal :=
  (m.find? (fun kv => kv.1 == k)).map (·.2)

/-- Python `str.strip()`: drop leading and trailing whitespace. -/
def pyStrip (s : String) : String :=
  ⟨((s.data.dropWhile (·.isWhitespace)).reverse.dropWhile (·.isWhitespace)).reverse⟩

/-- Embedding of `DatapizzaWorkflowExecutor._extract_component_path`:
the node's `data.component` entry if it is a non-blank string. -/
def extractComponentPath (node : NodeDef) : Option String :=
  match lookupKey (node.data.getD []) "component" with
  | Option.none => Option.none
  | Option.some (.str s) => if pyStrip s = "" then Option.none else Option.some s
  | Option.some _ => Option.none

/-- Outcome of `_invoke_component` for one node: the raw result, a
`FuturesTimeoutError`, a `ComponentInvocationError`, or any other
exception (wrapped by the caller as an unexpected error). -/
inductive InvokeResult where
  | ok (value : PyVal)
  | timeout
  | invocationError (msg : String)
  | unexpected (msg : String)

/-- The effectful collaborators of the drive loop: `resolve` models
`resolve_component` (already characterised separately) and `invoke`
models `_invoke_component` on the resolved component, the parameters map
and the gathered inputs payload. -/
structure ExecEnv where
  resolve : String → Except String PyVal
  invoke : PyVal → List (String × PyVal) → List (String × PyVal) → InvokeResult

/-- One recorded `WorkflowExecutionStep`. -/
structure StepRec where
  nodeId : String
  status : String
  details : String
  deriving Repr

/-- Insertion into a Python dict: replace the value under an existing key
or append a fresh entry. -/
def pyDictInsert (m : List (String × PyVal)) (k : String) (v : PyVal) :
    List (String × PyVal) :=
  if hasKey m k then m.map (fun kv => if kv.1 == k then (k, v) else kv)
  else m ++ [(k, v)]

/-- The dict comprehension
`{upstream: raw_results[upstream] for upstream in upstream_nodes if upstream in raw_results}`. -/
def buildInputsPayload (raw : List (String × PyVal)) (upstream : List String) :
    List (String × PyVal) :=
  upstream.foldl
    (fun acc u =>
      match lookupKey raw u with
      | Option.some v => pyDictInsert acc u v
      | Option.none => acc)
    []

/-- Insertion sort used to model Python `sorted` on strings (the claims
never depend on the resulting order). -/
def insertSorted (x : String) : List String → List String
  | [] => [x]
  | y :: ys => if decide (y < x) then y :: insertSorted x ys else x :: y :: ys

def sortStrings (l : List String) : List String := l.foldr insertSorted []

/-- `sorted(set(upstream_nodes) - set(inputs_payload))`: the upstream ids
with no recorded result, deduplicated and sorted. -/
def missingDeps (raw : List (String × PyVal)) (upstream : List String) : List String :=
  sortStrings ((upstream.filter (fun u => (lookupKey raw u).isNone)).dedup)

/-- Python `", ".join(l)`. -/
def joinComma : List String → String
  | [] => ""
  | [x] => x
  | x :: y :: rest => x ++ ", " ++ joinComma (y :: rest)

/-- Processing of one node in the drive loop of
`DatapizzaWorkflowExecutor.run`, following the source's branch order:
missing component reference, parameter normalisation, upstream gathering,
component resolution, bounded invocation. On failure it returns the failed
step together with the `error_type` attribute the source records for that
branch; on success the raw result and the completed step. -/
def processNode (env : ExecEnv) (timeoutStr : String) (incoming : String → List String)
    (raw : List (String × PyVal)) (node : NodeDef) :
    Except (StepRec × String) (PyVal × StepRec) :=
  match extractComponentPath node with
  | Option.none =>
      .error (⟨node.id, "failed", "node is missing a 'data.component' reference"⟩,
        "missing_component")
  | Option.some path =>
      match normaliseParameters ((lookupKey (node.data.getD []) "parameters").getD .none) with
      | .error msg => .error (⟨node.id, "failed", msg⟩, "invalid_parameters")
      | .ok parameters =>
          let upstream := incoming node.id
          let inputsPayload := buildInputsPayload raw upstream
          let missing := missingDeps raw upstream
          if missing.isEmpty then
            match env.resolve path with
            | .error msg => .error (⟨node.id, "failed", msg⟩, "component_load")
            | .ok comp =>
                match env.invoke comp parameters inputsPayload with
                | .timeout =>
                    .error (⟨node.id, "failed",
                        "component execution timed out after " ++ timeoutStr ++ "s"⟩,
                      "timeout")
                | .invocationError msg =>
                    .error (⟨node.id, "failed", msg⟩, "invocation_error")
                | .unexpected msg =>
                    .error (⟨node.id, "failed",
                        "component raised an unexpected error: " ++ msg⟩,
                      "unexpected_exception")
                | .ok v =>
                    .ok (v, ⟨node.id, "completed",
                      "Component '" ++ path ++ "' executed successfully"⟩)
          else
            .error (⟨node.id, "failed",
                "missing upstream results from nodes: " ++ joinComma missing⟩,
              "missing_dependencies")

/-- The observable outcome of `DatapizzaWorkflowExecutor.run` past the
planning phase: the run status, the recorded steps, the `raw_results`
map (raw values, fed to downstream nodes), the grouped results
(`(kind, node id, normalised value)` triples) and the `error_type`
attribute of the failure, if any. -/
structure RunOutcome where
  status : String
  steps : List StepRec
  rawResults : List (String × PyVal)
  grouped : List (String × String × PyVal)
  errorType : Option String
  deriving Repr

/-- The drive loop of `DatapizzaWorkflowExecutor.run` over the execution
order: process nodes in order, record a raw result and a normalised
grouped result on success, stop at the first failed node. -/
def runNodes (env : ExecEnv) (timeoutStr : String) (incoming : String → List String) :
    List NodeDef → List (String × PyVal) → RunOutcome
  | [], raw => ⟨"success", [], raw, [], Option.none⟩
  | node :: rest, raw =>
      match processNode env timeoutStr incoming raw node with
      | .error (step, etype) => ⟨"failure", [step], raw, [], Option.some etype⟩
      | .ok (v, step) =>
          let out := runNodes env timeoutStr incoming rest (raw ++ [(node.id, v)])
          ⟨out.status, step :: out.steps, out.rawResults,
            (node.kind, node.id, normaliseResult v) :: out.grouped, out.errorType⟩

/-- Every failed step recorded by `processNode` carries the node's id and
status `failed`. -/
theorem processNode_error_step (env : ExecEnv) (ts : String) (inc : String → List String)
    (raw : List (String × PyVal)) (node : NodeDef) (step : StepRec) (et : String)
    (h : processNode env ts inc raw node = .error (step, et)) :
    step.nodeId = node.id ∧ step.status = "failed" := by
  simp only [processNode] at h
  repeat' split at h
  all_goals simp only [Except.error.injEq, Prod.mk.injEq, reduceCtorEq] at h
  all_goals obtain ⟨h1, -⟩ := h
  all_goals subst h1
  all_goals exact ⟨rfl, rfl⟩

/-- Witness for `processNode_error_step` at a node with no component. -/
theorem processNode_error_step_witness :
    (⟨"n", "failed", "node is missing a 'data.component' reference"⟩ : StepRec).nodeId =
        (⟨"n", "task", Option.none⟩ : NodeDef).id ∧
      (⟨"n", "failed", "node is missing a 'data.component' reference"⟩ : StepRec).status =
        "failed" :=
  processNode_error_step ⟨fun _ => .error "", fun _ _ _ => .timeout⟩ "30.0" (fun _ => [])
    [] ⟨"n", "task", Option.none⟩ _ _ rfl

/-- Every completed step recorded by `processNode` carries the node's id
and status `completed`. -/
theorem processNode_ok_step (env : ExecEnv) (ts : String) (inc : String → List String)
    (raw : List (String × PyVal)) (node : NodeDef) (v : PyVal) (step : StepRec)
    (h : processNode env ts inc raw node = .ok (v, step)) :
    step.nodeId = node.id ∧ step.status = "completed" := by
  simp only [processNode] at h
  repeat' split at h
  all_goals simp only [Except.ok.injEq, Prod.mk.injEq, reduceCtorEq] at h
  all_goals obtain ⟨-, h1⟩ := h
  all_goals subst h1
  all_goals exact ⟨rfl, rfl⟩

/-- Witness for `processNode_ok_step` at a trivially succeeding node. -/
theorem processNode_ok_step_witness :
    (⟨"n", "completed", "Component 'datapizza.x.y' executed successfully"⟩ : StepRec).nodeId =
        (⟨"n", "task", Option.some [("component", .str "datapizza.x.y")]⟩ : NodeDef).id ∧
      (⟨"n", "completed", "Component 'datapizza.x.y' executed successfully"⟩ : StepRec).status =
        "completed" :=
  processNode_ok_step ⟨fun _ => .ok .none, fun _ _ _ => .ok .none⟩ "30.0" (fun _ => [])
    [] ⟨"n", "task", Option.some [("component", .str "datapizza.x.y")]⟩ _ _ rfl

/-- Either everything in the order completed and the run succeeded, or the
run failed with a completed prefix followed by a single failed step. -/
theorem runNodes_shape (env : ExecEnv) (ts : String) (incoming : String → List String) :
    ∀ (order : List NodeDef) (raw : List (String × PyVal)),
    ((runNodes env ts incoming order raw).status = "success" ∧
      (runNodes env ts incoming order raw).steps.map (·.nodeId) = order.map (·.id) ∧
      ∀ s ∈ (runNodes env ts incoming order raw).steps, s.status = "completed") ∨
    ((runNodes env ts incoming order raw).status = "failure" ∧
      ∃ k, k < order.length ∧
        (runNodes env ts incoming order raw).steps.map (·.status) =
          List.replicate k "completed" ++ ["failed"] ∧
        (runNodes env ts incoming order raw).steps.map (·.nodeId) =
          (order.map (·.id)).take (k + 1)) := by
  intro order
  induction order with
  | nil => intro raw; left; exact ⟨rfl, rfl, by simp [runNodes]⟩
  | cons node rest ih =>
      intro raw
      cases hp : processNode env ts incoming raw node with
      | error e =>
          obtain ⟨step, etype⟩ := e
          obtain ⟨hid, hst⟩ := processNode_error_step env ts incoming raw node step etype hp
          right
          refine ⟨by simp [runNodes, hp], 0, by simp, ?_, ?_⟩
          · simp [runNodes, hp, hst]
          · simp [runNodes, hp, hid]
      | ok r =>
          obtain ⟨v, step⟩ := r
          obtain ⟨hid, hst⟩ := processNode_ok_step env ts incoming raw node v step hp
          rcases ih (raw ++ [(node.id, v)]) with ⟨h1, h2, h3⟩ | ⟨h1, k, hk, h2, h3⟩
          · left
            refine ⟨by simp [runNodes, hp, h1], by simp [runNodes, hp, h2, hid], ?_⟩
            intro s hs
            simp only [runNodes, hp, List.mem_cons] at hs
            rcases hs with hs | hs
            · subst hs; exact hst
            · exact h3 s hs
          · right
            refine ⟨by simp [runNodes, hp, h1], k + 1, by simp; omega, ?_, ?_⟩
            · simp [runNodes, hp, h2, hst, List.replicate_succ]
            · simp [runNodes, hp, h3, hid]

/-- C2: for every execution order (with the model-guaranteed unique node
ids) the run status is `success` iff every node in the order produced a
completed step; on failure the steps are a completed prefix followed by a
single failed step for the first failing node, and no step record exists
for any node after it (so a node whose upstream failed never executes). -/
theorem c2_local_executor_first_failure (env : ExecEnv) (ts : String)
    (incoming : String → List String) (order : List NodeDef)
    (hnodup : (order.map (·.id)).Nodup) :
    ((runNodes env ts incoming order []).status = "success" ∨
      (runNodes env ts incoming order []).status = "failure") ∧
    ((runNodes env ts incoming order []).status = "success" ↔
      ∀ node ∈ order, ∃ s ∈ (runNodes env ts incoming order []).steps,
        s.nodeId = node.id ∧ s.status = "completed") ∧
    ((runNodes env ts incoming order []).status = "failure" →
      ∃ k, k < order.length ∧
        (runNodes env ts incoming order []).steps.map (·.status) =
          List.replicate k "completed" ++ ["failed"] ∧
        (runNodes env ts incoming order []).steps.map (·.nodeId) =
          (order.map (·.id)).take (k + 1) ∧
        ∀ id ∈ (order.map (·.id)).drop (k + 1),
          ∀ s ∈ (runNodes env ts incoming order []).steps, s.nodeId ≠ id) := by
  have shape := runNodes_shape env ts incoming order []
  refine ⟨?_, ⟨?_, ?_⟩, ?_⟩
  · rcases shape with ⟨h, -⟩ | ⟨h, -⟩
    · exact Or.inl h
    · exact Or.inr h
  · intro hsucc node hn
    rcases shape with ⟨-, hids, hcomp⟩ | ⟨hfail, -⟩
    · have hmem : node.id ∈ (runNodes env ts incoming order []).steps.map (·.nodeId) := by
        rw [hids]; exact List.mem_map_of_mem _ hn
      obtain ⟨s, hs, hsid⟩ := List.mem_map.mp hmem
      exact ⟨s, hs, hsid, hcomp s hs⟩
    · exact absurd (hsucc ▸ hfail) (by decide)
  · intro hall
    rcases shape with ⟨h1, -, -⟩ | ⟨hfail, k, hk, hstat, hids⟩
    · exact h1
    · exfalso
      have hklen : k < (order.map (·.id)).length := by simpa using hk
      obtain ⟨s, hs, hsid, hscomp⟩ := hall (order.get ⟨k, hk⟩) (order.get_mem k hk)
      obtain ⟨pre, post, hsplit, hpremap, hpostmap⟩ := List.map_eq_append_iff.mp hstat
      obtain ⟨lastStep, hpost⟩ : ∃ x, post = [x] := by
        cases post with
        | nil => simp at hpostmap
        | cons a t =>
            cases t with
            | nil => exact ⟨a, rfl⟩
            | cons b t2 => simp at hpostmap
      subst hpost
      have hlast_status : lastStep.status = "failed" := by simpa using hpostmap
      rw [hsplit] at hids
      have htake : (order.map (·.id)).take (k + 1) =
          (order.map (·.id)).take k ++ [(order.map (·.id)).get ⟨k, hklen⟩] := by
        rw [← List.take_concat_get _ k hklen, List.concat_eq_append]
        rfl
      rw [htake, List.map_append] at hids
      obtain ⟨hpreids, hlastid⟩ := List.append_inj' hids (by simp)
      rw [hsplit, List.mem_append] at hs
      have hgetid : (order.map (·.id)).get ⟨k, hklen⟩ = (order.get ⟨k, hk⟩).id := by
        simp
      rcases hs with hs | hs
      · have h1 : s.nodeId ∈ (order.map (·.id)).take k := by
          rw [← hpreids]; exact List.mem_map_of_mem _ hs
        have h2 : s.nodeId = (order.map (·.id)).get ⟨k, hklen⟩ := by
          rw [hsid, hgetid]
        have hnd : ((order.map (·.id)).take k ++ (order.map (·.id)).drop k).Nodup := by
          rw [List.take_append_drop]; exact hnodup
        have hdis := List.disjoint_of_nodup_append hnd
        refine hdis (h2 ▸ h1) ?_
        rw [List.drop_eq_getElem_cons hklen]
        exact List.mem_cons_self _ _
      · rw [List.mem_singleton] at hs
        subst hs
        exact absurd (hscomp ▸ hlast_status) (by decide)
  · intro hfail
    rcases shape with ⟨hsucc, -, -⟩ | ⟨-, k, hk, hstat, hids⟩
    · exact absurd (hsucc ▸ hfail) (by decide)
    · refine ⟨k, hk, hstat, hids, ?_⟩
      intro id hid s hs heq
      have h1 : s.nodeId ∈ (order.map (·.id)).take (k + 1) := by
        rw [← hids]; exact List.mem_map_of_mem _ hs
      have hnd : ((order.map (·.id)).take (k + 1) ++ (order.map (·.id)).drop (k + 1)).Nodup := by
        rw [List.take_append_drop]; exact hnodup
      exact List.disjoint_of_nodup_append hnd h1 (heq ▸ hid)

/-- An environment in which every node resolves and returns `None`. -/
def benignEnv : ExecEnv where
  resolve := fun _ => .ok .none
  invoke := fun _ _ _ => .ok .none

/-- A single task node with a component reference. -/
def simpleNode : NodeDef :=
  ⟨"n", "task", Option.some [("component", .str "datapizza.x.y")]⟩

/-- Witness for C2 at a concrete one-node order. -/
theorem c2_local_executor_first_failure_witness :
    (runNodes benignEnv "30.0" (fun _ => []) [simpleNode] []).status = "success" ∨
    (runNodes benignEnv "30.0" (fun _ => []) [simpleNode] []).status = "failure" :=
  (c2_local_executor_first_failure benignEnv "30.0" (fun _ => []) [simpleNode]
    (by simp)).1


/-- If the run records a failure kind, the run failed and the kind came
from the single failed step of some processed node. -/
theorem runNodes_errorType (env : ExecEnv) (ts : String) (inc : String → List String) :
    ∀ (order : List NodeDef) (raw : List (String × PyVal)) (et : String),
      (runNodes env ts inc order raw).errorType = Option.some et →
      (runNodes env ts inc order raw).status = "failure" ∧
      ∃ steps₀ step raw₀ node, node ∈ order ∧
        (runNodes env ts inc order raw).steps = steps₀ ++ [step] ∧
        processNode env ts inc raw₀ node = .error (step, et) := by
  intro order
  induction order with
  | nil => intro raw et h; exact absurd h (by simp [runNodes])
  | cons node rest ih =>
      intro raw et h
      cases hp : processNode env ts inc raw node with
      | error e =>
          obtain ⟨step, etype⟩ := e
          simp only [runNodes, hp, Option.some.injEq] at h
          subst h
          exact ⟨by simp [runNodes, hp], [], step, raw, node, by simp, by simp [runNodes, hp],
            hp⟩
      | ok r =>
          obtain ⟨v, step⟩ := r
          simp only [runNodes, hp] at h
          obtain ⟨hstatus, steps₀, step₁, raw₀, node₁, hmem, hsteps, hproc⟩ :=
            ih (raw ++ [(node.id, v)]) et h
          refine ⟨by simp [runNodes, hp, hstatus], step :: steps₀, step₁, raw₀, node₁,
            List.mem_cons_of_mem _ hmem, ?_, hproc⟩
          simp [runNodes, hp, hsteps]

/-- C8: a bounded invocation that exceeds the timeout makes `processNode`
record a failed step for that node whose details are the timeout-specific
message carrying the configured duration, under the distinct `timeout`
failure kind; only a timed-out invocation ever carries that kind, and its
details always are that exact message; and the failed node makes the whole
run report status `failure` with that kind. -/
theorem c8_timeout_failure (env : ExecEnv) (ts : String) (inc : String → List String)
    (raw : List (String × PyVal)) (node : NodeDef) :
    (∀ path params comp,
        extractComponentPath node = Option.some path →
        normaliseParameters ((lookupKey (node.data.getD []) "parameters").getD .none) =
          .ok params →
        missingDeps raw (inc node.id) = [] →
        env.resolve path = .ok comp →
        env.invoke comp params (buildInputsPayload raw (inc node.id)) = .timeout →
        processNode env ts inc raw node =
          .error (⟨node.id, "failed",
            "component execution timed out after " ++ ts ++ "s"⟩, "timeout")) ∧
    (∀ step, processNode env ts inc raw node = .error (step, "timeout") →
        step.details = "component execution timed out after " ++ ts ++ "s" ∧
        ∃ pre post, step.details = pre ++ ts ++ post) ∧
    (∀ rest step et, processNode env ts inc raw node = .error (step, et) →
        (runNodes env ts inc (node :: rest) raw).status = "failure" ∧
        (runNodes env ts inc (node :: rest) raw).errorType = Option.some et ∧
        (runNodes env ts inc (node :: rest) raw).steps = [step]) := by
  refine ⟨?_, ?_, ?_⟩
  · intro path params comp hpath hparams hmissing hresolve hinvoke
    simp [processNode, hpath, hparams, hmissing, hresolve, hinvoke]
  · intro step h
    simp only [processNode] at h
    repeat' split at h
    all_goals simp only [Except.error.injEq, Prod.mk.injEq, reduceCtorEq] at h
    all_goals obtain ⟨h1, h2⟩ := h
    all_goals first
      | exact absurd h2 (by decide)
      | (subst h1
         exact ⟨rfl, "component execution timed out after ", "s", rfl⟩)
  · intro rest step et h
    exact ⟨by simp [runNodes, h], by simp [runNodes, h], by simp [runNodes, h]⟩

/-- An environment whose invocation always times out. -/
def timeoutEnv : ExecEnv where
  resolve := fun _ => .ok .none
  invoke := fun _ _ _ => .timeout

/-- Witness for C8: a concrete node whose invocation times out yields the
timeout-kind failed step carrying the configured duration. -/
theorem c8_timeout_failure_witness :
    processNode timeoutEnv "0.1" (fun _ => []) [] simpleNode =
      .error (⟨simpleNode.id, "failed",
        "component execution timed out after " ++ "0.1" ++ "s"⟩, "timeout") :=
  (c8_timeout_failure timeoutEnv "0.1" (fun _ => []) [] simpleNode).1
    "datapizza.x.y" [] .none rfl rfl rfl rfl rfl


/-! ## C9: what downstream nodes receive -/

/-- Unfolding `lookupKey` over a cons cell. -/
theorem lookupKey_cons (a : String) (b : PyVal) (m : List (String × PyVal)) (k : String) :
    lookupKey ((a, b) :: m) k = if a = k then Option.some b else lookupKey m k := by
  by_cases h : a = k
  · simp [lookupKey, List.find?_cons, h]
  · simp [lookupKey, List.find?_cons, h]

/-- A key not present in the dict looks up to nothing. -/
theorem lookupKey_eq_none_of_not_hasKey (m : List (String × PyVal)) (k : String)
    (h : hasKey m k = false) : lookupKey m k = Option.none := by
  induction m with
  | nil => rfl
  | cons kv rest ih =>
      obtain ⟨a, b⟩ := kv
      simp only [hasKey, List.any_cons, Bool.or_eq_false_iff] at h
      obtain ⟨h1, h2⟩ := h
      rw [lookupKey_cons, if_neg (by simpa using h1)]
      exact ih h2

/-- Replacing the values under key `k` yields `v` under `k` when the key
is present. -/
theorem lookupKey_mapReplace_self (m : List (String × PyVal)) (k : String) (v : PyVal) :
    lookupKey (m.map fun kv => if kv.1 == k then (k, v) else kv) k =
      if hasKey m k then Option.some v else Option.none := by
  induction m with
  | nil => simp [lookupKey, hasKey]
  | cons kv rest ih =>
      obtain ⟨a, b⟩ := kv
      by_cases hak : a = k
      · subst hak
        simp [List.map_cons, lookupKey_cons, hasKey]
      · simp only [List.map_cons]
        rw [show (if ((a, b).1 == k) = true then (k, v) else (a, b)) = (a, b) from by
          simp [hak]]
        rw [lookupKey_cons, if_neg hak, ih]
        have hbeq : (a == k) = false := by simp [hak]
        simp only [hasKey, List.any_cons, hbeq, Bool.false_or]

/-- Replacing the values under key `k` preserves lookups of other keys. -/
theorem lookupKey_mapReplace_ne (m : List (String × PyVal)) (k : String) (v : PyVal)
    (k' : String) (hne : k' ≠ k) :
    lookupKey (m.map fun kv => if kv.1 == k then (k, v) else kv) k' = lookupKey m k' := by
  induction m with
  | nil => rfl
  | cons kv rest ih =>
      obtain ⟨a, b⟩ := kv
      by_cases hak : a = k
      · subst hak
        simp only [List.map_cons, beq_self_eq_true, if_true]
        rw [lookupKey_cons, lookupKey_cons, if_neg (fun h => hne h.symm),
          if_neg (fun h => hne h.symm)]
        exact ih
      · simp only [List.map_cons]
        rw [show (if ((a, b).1 == k) = true then (k, v) else (a, b)) = (a, b) from by
          simp [hak]]
        rw [lookupKey_cons, lookupKey_cons]
        by_cases hk' : a = k'
        · simp [hk']
        · rw [if_neg hk', if_neg hk']
          exact ih

/-- Looking a key up past an appended singleton entry. -/
theorem lookupKey_append_one (m : List (String × PyVal)) (k0 : String) (v0 : PyVal)
    (k : String) :
    lookupKey (m ++ [(k0, v0)]) k =
      (lookupKey m k).or (if k0 = k then Option.some v0 else Option.none) := by
  unfold lookupKey
  rw [List.find?_append]
  cases hf : m.find? (fun kv => kv.1 == k) with
  | some w => simp
  | none => by_cases h : k0 = k <;> simp [List.find?_cons, h]

/-- Lookup after a Python dict insertion: the inserted value under its key,
unchanged lookups elsewhere. -/
theorem lookupKey_pyDictInsert (m : List (String × PyVal)) (k : String) (v : PyVal)
    (k' : String) :
    lookupKey (pyDictInsert m k v) k' =
      if k' = k then Option.some v else lookupKey m k' := by
  unfold pyDictInsert
  cases hh : hasKey m k with
  | true =>
      simp only [if_true]
      by_cases h : k' = k
      · subst h
        rw [lookupKey_mapReplace_self, hh, if_pos rfl]
        simp
      · rw [lookupKey_mapReplace_ne m k v k' h, if_neg h]
  | false =>
      simp only [Bool.false_eq_true, if_false]
      rw [lookupKey_append_one]
      by_cases h : k' = k
      · subst h
        rw [lookupKey_eq_none_of_not_hasKey m k' hh]
        simp
      · rw [if_neg (fun hh2 => h hh2.symm), if_neg h, Option.or_none]

/-- Looking a key up past an appended singleton, inverted. -/
theorem lookupKey_append_single (m : List (String × PyVal)) (k0 : String) (v0 : PyVal)
    (k : String) (v : PyVal)
    (h : lookupKey (m ++ [(k0, v0)]) k = Option.some v) :
    lookupKey m k = Option.some v ∨
      (lookupKey m k = Option.none ∧ k = k0 ∧ v = v0) := by
  rw [lookupKey_append_one] at h
  cases hf : lookupKey m k with
  | some w =>
      rw [hf] at h
      simp only [Option.or_some] at h
      exact Or.inl h
  | none =>
      rw [hf] at h
      simp only [Option.none_or] at h
      by_cases hk : k0 = k
      · rw [if_pos hk] at h
        exact Or.inr ⟨rfl, hk.symm, by simpa using h.symm⟩
      · rw [if_neg hk] at h
        exact absurd h (by simp)

/-- The gathered inputs payload hands a downstream node exactly the value
recorded in `raw_results` for each upstream id present there. -/
theorem buildInputsPayload_lookup (raw : List (String × PyVal)) (ups : List String)
    (u : String) (v : PyVal) (hu : u ∈ ups) (hv : lookupKey raw u = Option.some v) :
    lookupKey (buildInputsPayload raw ups) u = Option.some v := by
  suffices h : ∀ (acc : List (String × PyVal)),
      (∀ w v', lookupKey acc w = Option.some v' → lookupKey raw w = Option.some v') →
      (u ∈ ups ∨ lookupKey acc u = Option.some v) →
      lookupKey (ups.foldl
        (fun acc u =>
          match lookupKey raw u with
          | Option.some v => pyDictInsert acc u v
          | Option.none => acc) acc) u = Option.some v by
    exact h [] (by intro w v' hw; simp [lookupKey] at hw) (Or.inl hu)
  clear hu
  induction ups with
  | nil =>
      intro acc hacc hor
      rcases hor with h | h
      · exact absurd h (List.not_mem_nil u)
      · exact h
  | cons w ws ih =>
      intro acc hacc hor
      simp only [List.foldl_cons]
      cases hw : lookupKey raw w with
      | none =>
          refine ih acc hacc ?_
          rcases hor with h | h
          · rcases List.mem_cons.mp h with h | h
            · subst h; rw [hv] at hw; exact absurd hw (by simp)
            · exact Or.inl h
          · exact Or.inr h
      | some vw =>
          refine ih (pyDictInsert acc w vw) ?_ ?_
          · intro x v' hx
            rw [lookupKey_pyDictInsert] at hx
            by_cases hxw : x = w
            · subst hxw
              simp only [if_true] at hx
              rw [hw]
              exact hx ▸ rfl
            · rw [if_neg hxw] at hx
              exact hacc x v' hx
          · by_cases huw : u = w
            · subst huw
              right
              rw [lookupKey_pyDictInsert, if_pos rfl]
              rw [hv] at hw
              exact hw.symm ▸ rfl
            · rcases hor with h | h
              · rcases List.mem_cons.mp h with h | h
                · exact absurd h huw
                · exact Or.inl h
              · right
                rw [lookupKey_pyDictInsert, if_neg huw]
                exact h

/-- Every raw result recorded by a run started with an empty
`raw_results` map has its normalised form in the grouped outputs. -/
theorem runNodes_raw_grouped (env : ExecEnv) (ts : String) (inc : String → List String) :
    ∀ (order : List NodeDef) (raw : List (String × PyVal)) (id : String) (v : PyVal),
      lookupKey (runNodes env ts inc order raw).rawResults id = Option.some v →
      lookupKey raw id = Option.some v ∨
        ∃ kind, (kind, id, normaliseResult v) ∈ (runNodes env ts inc order raw).grouped := by
  intro order
  induction order with
  | nil => intro raw id v h; exact Or.inl h
  | cons node rest ih =>
      intro raw id v h
      cases hp : processNode env ts inc raw node with
      | error e =>
          simp only [runNodes, hp] at h
          exact Or.inl h
      | ok r =>
          obtain ⟨v0, step⟩ := r
          simp only [runNodes, hp] at h
          rcases ih (raw ++ [(node.id, v0)]) id v h with h1 | ⟨kind, hk⟩
          · rcases lookupKey_append_single raw node.id v0 id v h1 with h2 | ⟨-, hid, hv⟩
            · exact Or.inl h2
            · subst hid hv
              exact Or.inr ⟨node.kind, by simp [runNodes, hp]⟩
          · exact Or.inr ⟨kind, by simp [runNodes, hp]; right; exact hk⟩

/-- The claim-refuting environment: node `A` returns the non-normalised
value `other "x"`; every other node echoes the value its inputs payload
carries for `A`. -/
def c9Env : ExecEnv where
  resolve := fun path => .ok (.str path)
  invoke := fun comp _ inputs =>
    match comp with
    | .str "datapizza.a.make" => .ok (.other "x")
    | _ => .ok ((lookupKey inputs "A").getD .none)

def c9NodeA : NodeDef := ⟨"A", "task", Option.some [("component", .str "datapizza.a.make")]⟩
def c9NodeB : NodeDef := ⟨"B", "task", Option.some [("component", .str "datapizza.b.echo")]⟩

def c9Incoming : String → List String := fun id => if id = "B" then ["A"] else []

/-- C9 counterexample: with node `A` upstream of node `B`, `B` receives
under key `A` the raw result `other "x"` of `A` (it echoes it into its own
recorded result), not `A`'s normalised result `str "x"`; only the grouped
run outputs carry the normalised form. So the inputs payload does not map
the upstream id to the normalised result, refuting the claim as stated. -/
theorem c9_counterexample :
    (runNodes c9Env "30.0" c9Incoming [c9NodeA, c9NodeB] []).rawResults =
      [("A", .other "x"), ("B", .other "x")] ∧
    (runNodes c9Env "30.0" c9Incoming [c9NodeA, c9NodeB] []).grouped =
      [("task", "A", .str "x"), ("task", "B", .str "x")] ∧
    normaliseResult (.other "x") = .str "x" ∧
    PyVal.other "x" ≠ PyVal.str "x" :=
  ⟨rfl, rfl, rfl, fun h => PyVal.noConfusion h⟩

/-- C9 amended: the value handed downstream under an upstream node's id is
that node's raw result as recorded in `raw_results`, while the normalised
form of that result is recorded (only) in the grouped run outputs. -/
theorem c9_amended_raw_downstream (env : ExecEnv) (ts : String)
    (inc : String → List String) (order : List NodeDef) (node : NodeDef)
    (u : String) (v : PyVal)
    (hu : u ∈ inc node.id)
    (hv : lookupKey (runNodes env ts inc order []).rawResults u = Option.some v) :
    lookupKey
        (buildInputsPayload (runNodes env ts inc order []).rawResults (inc node.id)) u =
      Option.some v ∧
    ∃ kind, (kind, u, normaliseResult v) ∈ (runNodes env ts inc order []).grouped := by
  refine ⟨buildInputsPayload_lookup _ _ _ _ hu hv, ?_⟩
  rcases runNodes_raw_grouped env ts inc order [] u v hv with h | h
  · exact absurd h (by simp [lookupKey])
  · exact h

/-- Witness for the amended C9 at the counterexample run. -/
theorem c9_amended_raw_downstream_witness :
    lookupKey
        (buildInputsPayload
          (runNodes c9Env "30.0" c9Incoming [c9NodeA, c9NodeB] []).rawResults
          (c9Incoming c9NodeB.id)) "A" = Option.some (.other "x") ∧
    ∃ kind, (kind, "A", normaliseResult (.other "x")) ∈
      (runNodes c9Env "30.0" c9Incoming [c9NodeA, c9NodeB] []).grouped :=
  c9_amended_raw_downstream c9Env "30.0" c9Incoming [c9NodeA, c9NodeB] c9NodeB
    "A" (.other "x") (by simp [c9Incoming, c9NodeB]) rfl


/-! ## executor._build_execution_plan (Kahn's algorithm) -/

/-- A workflow edge (only the node references matter to the planner;
Python reads `edge.source.nodeId` / `edge.target.nodeId`). -/
structure EdgeDef where
  source : String
  target : String
  deriving Repr, DecidableEq

/-- The graph the executor receives. -/
structure WorkflowDef where
  nodes : List NodeDef
  edges : List EdgeDef
  deriving Repr

def nodeIds (w : WorkflowDef) : List String := w.nodes.map (·.id)

/-- `incoming_counts` after the edge loop: per id, the number of edges
targeting it. The Python dict is keyed by node ids only and raises on an
edge to a foreign id; for validated graphs every endpoint is a node id,
so this total function agrees with it on every id the algorithm uses. -/
def initialCounts (edges : List EdgeDef) : String → Int :=
  edges.foldl (fun cnt e => fun x => if x = e.target then cnt x + 1 else cnt x)
    (fun _ => 0)

/-- `incoming_map`: the source of every edge targeting `id`, in edge
order (the Python loop appends per edge; `setdefault` fills `[]`). -/
def incomingMap (edges : List EdgeDef) : String → List String :=
  fun id => (edges.filter (fun e => e.target == id)).map (·.source)

/-- `adjacency`: the target of every edge leaving `id`, in edge order. -/
def adjacencyMap (edges : List EdgeDef) : String → List String :=
  fun id => (edges.filter (fun e => e.source == id)).map (·.target)

/-- `nodes_by_id` lookup (node ids are unique in a validated graph). -/
def findNode (nodes : List NodeDef) (id : String) : Option NodeDef :=
  nodes.find? (fun n => n.id == id)

/-- The `for downstream in adjacency.get(node_id, [])` loop: decrement
each downstream count, enqueueing a node exactly when its count reaches
zero. -/
def processDownstream : List String → (String → Int) → List String →
    ((String → Int) × List String)
  | [], cnt, queue => (cnt, queue)
  | d :: ds, cnt, queue =>
      let cnt' := fun x => if x = d then cnt x - 1 else cnt x
      processDownstream ds cnt' (if cnt' d = 0 then queue ++ [d] else queue)

/-- The `while queue` loop of Kahn's algorithm, with explicit fuel; for a
validated graph every node is dequeued at most once, so the
`nodes.length + 1` fuel the planner passes is never exhausted (proved
below), and the dequeued id is always found in `nodes_by_id`. -/
def kahnLoop (nodes : List NodeDef) (adjacency : String → List String) :
    Nat → List String → (String → Int) → List NodeDef → List NodeDef
  | 0, _, _, ordered => ordered
  | _ + 1, [], _, ordered => ordered
  | fuel + 1, id :: rest, cnt, ordered =>
      let ordered' := ordered ++ (findNode nodes id).toList
      let next := processDownstream (adjacency id) cnt rest
      kahnLoop nodes adjacency fuel next.2 next.1 ordered'

/-- Embedding of `DatapizzaWorkflowExecutor._build_execution_plan`:
compute in-degrees, seed the queue with the zero-in-degree node ids in
declaration order, run Kahn's loop, and fail if the order misses nodes. -/
def buildExecutionPlan (w : WorkflowDef) :
    Except String (List NodeDef × (String → List String)) :=
  let cnt := initialCounts w.edges
  let queue := (nodeIds w).filter (fun id => cnt id == 0)
  let ordered := kahnLoop w.nodes (adjacencyMap w.edges) (w.nodes.length + 1) queue cnt []
  if ordered.length ≠ w.nodes.length then
    .error "workflow contains cycles or unresolved dependencies"
  else
    .ok (ordered, incomingMap w.edges)

/-- The structural invariant the pydantic `WorkflowDefinition` validator
guarantees before the executor runs: unique node ids, and every edge
endpoint is a node id. -/
structure ValidGraph (w : WorkflowDef) : Prop where
  nodup : (nodeIds w).Nodup
  sourceMem : ∀ e ∈ w.edges, e.source ∈ nodeIds w
  targetMem : ∀ e ∈ w.edges, e.target ∈ nodeIds w

/-- One edge step of the graph's dependency relation. -/
def EdgeStep (w : WorkflowDef) (a b : String) : Prop :=
  ∃ e ∈ w.edges, e.source = a ∧ e.target = b

/-- The graph's edges form an acyclic relation over its nodes. -/
def Acyclic (w : WorkflowDef) : Prop :=
  ∀ a, ¬ Relation.TransGen (EdgeStep w) a a

/-- The number of edges into `id` whose source has not been processed:
the meaning of the algorithm's running in-degree counters. -/
def scount (w : WorkflowDef) (done : List String) (id : String) : Nat :=
  w.edges.countP (fun e => e.target == id && !(decide (e.source ∈ done)))

theorem countP_split {α : Type} (l : List α) (p q : α → Bool) :
    l.countP p = l.countP (fun a => p a && q a) + l.countP (fun a => p a && !q a) := by
  induction l with
  | nil => rfl
  | cons a t ih =>
      by_cases hp : p a
      · by_cases hq : q a <;> simp [List.countP_cons, hp, hq, ih] <;> omega
      · simp [List.countP_cons, hp, ih]

theorem initialCounts_apply (edges : List EdgeDef) (x : String) :
    initialCounts edges x = (edges.countP (fun e => e.target == x) : Int) := by
  suffices h : ∀ (f : String → Int),
      (edges.foldl (fun cnt e => fun y => if y = e.target then cnt y + 1 else cnt y) f) x =
        f x + edges.countP (fun e => e.target == x) by
    simpa using h (fun _ => 0)
  induction edges with
  | nil => intro f; simp
  | cons e t ih =>
      intro f
      simp only [List.foldl_cons, List.countP_cons]
      rw [ih]
      by_cases hx : x = e.target
      · simp only [hx, if_pos rfl, beq_self_eq_true, if_true]
        push_cast
        ring
      · have : (e.target == x) = false := by simp [Ne.symm hx]
        simp only [if_neg hx, this, if_false]
        push_cast
        ring

theorem adjacency_count (edges : List EdgeDef) (id x : String) :
    (adjacencyMap edges id).count x =
      edges.countP (fun e => e.target == x && e.source == id) := by
  unfold adjacencyMap
  rw [List.count_eq_countP, List.countP_map, List.countP_filter]
  simp [Function.comp]

/-- What the decrement loop does to the counters and the queue. -/
theorem processDownstream_spec :
    ∀ (ds : List String) (cnt : String → Int) (q : List String),
      (∀ x, (processDownstream ds cnt q).1 x = cnt x - ds.count x) ∧
      ∃ newq, (processDownstream ds cnt q).2 = q ++ newq ∧ newq.Nodup ∧
        (∀ x, x ∈ newq ↔ (1 ≤ cnt x ∧ cnt x ≤ (ds.count x : Int))) := by
  intro ds
  induction ds with
  | nil =>
      intro cnt q
      refine ⟨fun x => by simp [processDownstream], [], by simp [processDownstream], by simp, ?_⟩
      intro x
      simp [List.count_nil]
      omega
  | cons d ds ih =>
      intro cnt q
      set cnt' : String → Int := fun x => if x = d then cnt x - 1 else cnt x with hcnt'
      have hmain : processDownstream (d :: ds) cnt q =
          processDownstream ds cnt' (if cnt' d = 0 then q ++ [d] else q) := rfl
      obtain ⟨hc, newq, hq, hnd, hmem⟩ := ih cnt' (if cnt' d = 0 then q ++ [d] else q)
      constructor
      · intro x
        rw [hmain, hc]
        by_cases hx : x = d
        · subst hx
          simp only [hcnt', if_pos rfl, List.count_cons_self]
          push_cast
          ring
        · simp only [hcnt', if_neg hx]
          rw [List.count_cons_of_ne hx]
      · by_cases hz : cnt' d = 0
        · refine ⟨d :: newq, ?_, ?_, ?_⟩
          · rw [hmain, hq, if_pos hz]
            simp
          · refine List.Nodup.cons ?_ hnd
            intro hdmem
            have := (hmem d).mp hdmem
            rw [hz] at this
            omega
          · intro x
            by_cases hx : x = d
            · subst hx
              simp only [List.mem_cons, true_or, true_iff]
              have hd1 : cnt x = 1 := by
                have h0 : cnt x - 1 = 0 := by simpa [hcnt'] using hz
                omega
              rw [hd1]
              refine ⟨le_refl 1, ?_⟩
              have hcc : (x :: ds).count x = ds.count x + 1 := List.count_cons_self _ _
              rw [hcc]
              push_cast
              omega
            · rw [List.mem_cons]
              simp only [hx, false_or]
              rw [hmem x]
              simp only [hcnt', if_neg hx]
              rw [List.count_cons_of_ne hx]
        · refine ⟨newq, ?_, hnd, ?_⟩
          · rw [hmain, hq, if_neg hz]
          · intro x
            rw [hmem x]
            by_cases hx : x = d
            · subst hx
              simp only [hcnt', if_pos rfl, List.count_cons_self]
              have hne1 : cnt x ≠ 1 := by
                intro h1
                exact hz (by simp [hcnt', h1])
              push_cast
              omega
            · simp only [hcnt', if_neg hx]
              rw [List.count_cons_of_ne hx]


/-- Splitting the remaining in-degree of `x` when `id` is processed. -/
theorem scount_step (w : WorkflowDef) (done : List String) (id : String)
    (hid : id ∉ done) (x : String) :
    scount w done x = scount w (done ++ [id]) x +
      w.edges.countP (fun e => e.target == x && e.source == id) := by
  unfold scount
  rw [countP_split w.edges _ (fun e => e.source == id), Nat.add_comm]
  congr 1
  · apply List.countP_congr
    intro e he
    constructor
    · intro h
      simp only [Bool.and_eq_true, Bool.not_eq_true', decide_eq_false_iff_not,
        beq_iff_eq, beq_eq_false_iff_ne] at h ⊢
      obtain ⟨⟨ht, hs⟩, hsid⟩ := h
      refine ⟨ht, ?_⟩
      simp only [List.mem_append, List.mem_singleton]
      rintro (hmem | hmem)
      · exact hs hmem
      · exact hsid hmem
    · intro h
      simp only [Bool.and_eq_true, Bool.not_eq_true', decide_eq_false_iff_not,
        beq_iff_eq, beq_eq_false_iff_ne, List.mem_append, List.mem_singleton] at h ⊢
      obtain ⟨ht, hs⟩ := h
      exact ⟨⟨ht, fun hm => hs (Or.inl hm)⟩, fun hm => hs (Or.inr hm)⟩
  · apply List.countP_congr
    intro e he
    constructor
    · intro h
      simp only [Bool.and_eq_true, beq_iff_eq] at h ⊢
      exact ⟨h.1.1, h.2⟩
    · intro h
      simp only [Bool.and_eq_true, Bool.not_eq_true', decide_eq_false_iff_not,
        beq_iff_eq] at h ⊢
      refine ⟨⟨h.1, ?_⟩, h.2⟩
      rw [h.2]
      exact hid

/-- A node with no remaining in-degree has all its edge sources done. -/
theorem scount_zero (w : WorkflowDef) (done : List String) (t : String)
    (h : scount w done t = 0) :
    ∀ e ∈ w.edges, e.target = t → e.source ∈ done := by
  intro e he het
  have hcon := List.countP_eq_zero.mp h e he
  simp only [het, beq_self_eq_true, Bool.true_and, Bool.not_eq_true',
    decide_eq_false_iff_not, not_not] at hcon
  exact hcon

/-- `nodes_by_id` finds a genuine node under any node id. -/
theorem findNode_spec (w : WorkflowDef) (id : String) (hid : id ∈ nodeIds w) :
    ∃ n, findNode w.nodes id = Option.some n ∧ n.id = id ∧ n ∈ w.nodes := by
  obtain ⟨n, hn, hnid⟩ := List.mem_map.mp hid
  cases hfind : findNode w.nodes id with
  | none =>
      exfalso
      rw [findNode, List.find?_eq_none] at hfind
      exact hfind n hn (by simp [hnid])
  | some m =>
      have hfind2 : w.nodes.find? (fun n => n.id == id) = Option.some m := hfind
      have hpred := List.find?_some hfind2
      have hmem := List.mem_of_find?_eq_some hfind2
      exact ⟨m, rfl, by simpa using hpred, hmem⟩

/-- Loop invariant of Kahn's algorithm over the validated graph `w`, with
`ord.map (·.id)` the ids already scheduled: the order holds genuine
nodes; the scheduled and queued ids are distinct node ids; the counters
hold the semantic remaining in-degree; a counter is zero exactly when its
id is scheduled or queued; sources of edges into scheduled or queued
nodes are scheduled; and edges into scheduled nodes point forward. -/
structure KahnInv (w : WorkflowDef) (queue : List String) (cnt : String → Int)
    (ord : List NodeDef) : Prop where
  ordMem : ∀ n ∈ ord, n ∈ w.nodes
  nodup : (ord.map (·.id) ++ queue).Nodup
  mem_ids : ∀ x ∈ ord.map (·.id) ++ queue, x ∈ nodeIds w
  cnt_eq : ∀ id ∈ nodeIds w, cnt id = (scount w (ord.map (·.id)) id : Int)
  zero_iff : ∀ id ∈ nodeIds w, (cnt id = 0 ↔ id ∈ ord.map (·.id) ++ queue)
  edge_done : ∀ e ∈ w.edges, e.target ∈ ord.map (·.id) ++ queue →
    e.source ∈ ord.map (·.id)
  edge_idx : ∀ e ∈ w.edges, e.target ∈ ord.map (·.id) →
    e.source ∈ ord.map (·.id) ∧
      (ord.map (·.id)).indexOf e.source < (ord.map (·.id)).indexOf e.target

/-- The invariant holds at the seeded queue. -/
theorem kahnInv_init (w : WorkflowDef) (hv : ValidGraph w) :
    KahnInv w ((nodeIds w).filter (fun id => initialCounts w.edges id == 0))
      (initialCounts w.edges) [] := by
  have hcnt : ∀ x, initialCounts w.edges x = (scount w [] x : Int) := by
    intro x
    rw [initialCounts_apply]
    unfold scount
    congr 1
    apply List.countP_congr
    intro e he
    simp
  refine ⟨?_, ?_, ?_, ?_, ?_, ?_, ?_⟩
  · intro n hn; exact absurd hn (List.not_mem_nil n)
  · simpa using (hv.nodup.filter _)
  · intro x hx
    simp only [List.map_nil, List.nil_append] at hx
    exact List.mem_of_mem_filter hx
  · intro id _; exact hcnt id
  · intro id hid
    simp only [List.map_nil, List.nil_append, List.mem_filter]
    constructor
    · intro h; exact ⟨hid, by simp [h]⟩
    · rintro ⟨-, h⟩; simpa using h
  · intro e he htarget
    exfalso
    simp only [List.map_nil, List.nil_append, List.mem_filter] at htarget
    obtain ⟨-, hzero⟩ := htarget
    have h0 : initialCounts w.edges e.target = 0 := by simpa using hzero
    rw [initialCounts_apply] at h0
    have hcp : w.edges.countP (fun e2 => e2.target == e.target) = 0 := by
      exact_mod_cast h0
    have := List.countP_eq_zero.mp hcp e he
    simp at this
  · intro e he htarget
    exact absurd htarget (by simp)


/-- One dequeue step schedules a genuine node and preserves the invariant. -/
theorem kahnInv_step (w : WorkflowDef) (hv : ValidGraph w)
    (id : String) (rest : List String) (cnt : String → Int) (ord : List NodeDef)
    (inv : KahnInv w (id :: rest) cnt ord) :
    ∃ n, findNode w.nodes id = Option.some n ∧ n.id = id ∧
      KahnInv w (processDownstream (adjacencyMap w.edges id) cnt rest).2
        (processDownstream (adjacencyMap w.edges id) cnt rest).1 (ord ++ [n]) := by
  have hidmem : id ∈ nodeIds w := inv.mem_ids id (by simp)
  obtain ⟨n, hfind, hnid, hnmem⟩ := findNode_spec w id hidmem
  have hdone' : (ord ++ [n]).map (·.id) = ord.map (·.id) ++ [id] := by
    simp [hnid]
  have hnodup0 := inv.nodup
  have hsplit := List.nodup_append.mp hnodup0
  have hidnotdone : id ∉ ord.map (·.id) := by
    intro hmem
    exact hsplit.2.2 hmem (by simp)
  obtain ⟨hc, newq, hq2, hnewnd, hnewmem⟩ :=
    processDownstream_spec (adjacencyMap w.edges id) cnt rest
  have hcount : ∀ x, (adjacencyMap w.edges id).count x =
      w.edges.countP (fun e => e.target == x && e.source == id) :=
    fun x => adjacency_count w.edges id x
  have hcnt2 : ∀ x ∈ nodeIds w,
      (processDownstream (adjacencyMap w.edges id) cnt rest).1 x =
        (scount w (ord.map (·.id) ++ [id]) x : Int) := by
    intro x hx
    rw [hc x, inv.cnt_eq x hx, hcount x]
    have hstep := scount_step w (ord.map (·.id)) id hidnotdone x
    omega
  have hnewq_ids : ∀ x ∈ newq, x ∈ nodeIds w := by
    intro x hx
    obtain ⟨hb1, hb2⟩ := (hnewmem x).mp hx
    have hpos : 0 < (adjacencyMap w.edges id).count x := by
      by_contra hcon
      push_neg at hcon
      have h0 : (adjacencyMap w.edges id).count x = 0 := Nat.le_zero.mp hcon
      rw [h0] at hb2
      simp only [Nat.cast_zero] at hb2
      omega
    have hxmem : x ∈ adjacencyMap w.edges id := List.count_pos_iff.mp hpos
    unfold adjacencyMap at hxmem
    obtain ⟨e, he, heq⟩ := List.mem_map.mp hxmem
    rw [← heq]
    exact hv.targetMem e (List.mem_of_mem_filter he)
  have hnewq_not_old : ∀ x ∈ newq, x ∉ ord.map (·.id) ++ id :: rest := by
    intro x hx hmem2
    have hzero := (inv.zero_iff x (hnewq_ids x hx)).mpr hmem2
    obtain ⟨hb1, hb2⟩ := (hnewmem x).mp hx
    omega
  refine ⟨n, hfind, hnid, ?_⟩
  rw [hq2]
  refine ⟨?_, ?_, ?_, ?_, ?_, ?_, ?_⟩
  · intro m hm
    rcases List.mem_append.mp hm with hm | hm
    · exact inv.ordMem m hm
    · rw [List.mem_singleton] at hm; subst hm; exact hnmem
  · rw [hdone']
    have hperm : (ord.map (·.id) ++ [id]) ++ (rest ++ newq) =
        (ord.map (·.id) ++ id :: rest) ++ newq := by
      simp
    rw [hperm, List.nodup_append]
    refine ⟨hnodup0, hnewnd, ?_⟩
    intro a ha hanew
    exact hnewq_not_old a hanew ha
  · intro x hx
    rw [hdone'] at hx
    rcases List.mem_append.mp hx with hx | hx
    · rcases List.mem_append.mp hx with hx | hx
      · exact inv.mem_ids x (List.mem_append_left _ hx)
      · rw [List.mem_singleton] at hx; subst hx; exact hidmem
    · rcases List.mem_append.mp hx with hx | hx
      · exact inv.mem_ids x (List.mem_append_right _ (List.mem_cons_of_mem _ hx))
      · exact hnewq_ids x hx
  · intro x hx
    rw [hdone']
    exact hcnt2 x hx
  · intro x hx
    rw [hdone']
    constructor
    · intro h0
      by_cases hold : x ∈ ord.map (·.id) ++ id :: rest
      · rcases List.mem_append.mp hold with hx2 | hx2
        · exact List.mem_append_left _ (List.mem_append_left _ hx2)
        · rcases List.mem_cons.mp hx2 with hx2 | hx2
          · subst hx2
            exact List.mem_append_left _ (List.mem_append_right _ (by simp))
          · exact List.mem_append_right _ (List.mem_append_left _ hx2)
      · have h1 := inv.cnt_eq x hx
        have h2 := hc x
        have h3 := hcnt2 x hx
        have hnz : cnt x ≠ 0 := fun hz => hold ((inv.zero_iff x hx).mp hz)
        exact List.mem_append_right _ (List.mem_append_right _
          ((hnewmem x).mpr ⟨by omega, by omega⟩))
    · intro hmem
      have h2 := hc x
      have h3 := hcnt2 x hx
      rcases List.mem_append.mp hmem with hx2 | hx2
      · rcases List.mem_append.mp hx2 with hx2 | hx2
        · have h0 : cnt x = 0 := (inv.zero_iff x hx).mpr (List.mem_append_left _ hx2)
          omega
        · rw [List.mem_singleton] at hx2; subst hx2
          have h0 : cnt x = 0 := (inv.zero_iff x hx).mpr (by simp)
          omega
      · rcases List.mem_append.mp hx2 with hx2 | hx2
        · have h0 : cnt x = 0 := (inv.zero_iff x hx).mpr
            (List.mem_append_right _ (List.mem_cons_of_mem _ hx2))
          omega
        · obtain ⟨hb1, hb2⟩ := (hnewmem x).mp hx2
          omega
  · intro e he htarget
    rw [hdone'] at htarget ⊢
    have hcases : e.target ∈ ord.map (·.id) ++ id :: rest ∨ e.target ∈ newq := by
      rcases List.mem_append.mp htarget with hx2 | hx2
      · rcases List.mem_append.mp hx2 with hx2 | hx2
        · exact Or.inl (List.mem_append_left _ hx2)
        · rw [List.mem_singleton] at hx2
          exact Or.inl (List.mem_append_right _ (hx2 ▸ List.mem_cons_self _ _))
      · rcases List.mem_append.mp hx2 with hx2 | hx2
        · exact Or.inl (List.mem_append_right _ (List.mem_cons_of_mem _ hx2))
        · exact Or.inr hx2
    rcases hcases with hcase | hcase
    · exact List.mem_append_left _ (inv.edge_done e he hcase)
    · have hxids := hnewq_ids _ hcase
      obtain ⟨hb1, hb2⟩ := (hnewmem _).mp hcase
      have h1 := inv.cnt_eq e.target hxids
      have h2 := hc e.target
      have h3 := hcnt2 e.target hxids
      have hz : scount w (ord.map (·.id) ++ [id]) e.target = 0 := by omega
      exact scount_zero w _ _ hz e he rfl
  · intro e he htarget
    rw [hdone'] at htarget ⊢
    rcases List.mem_append.mp htarget with hx2 | hx2
    · obtain ⟨hsrc, hlt⟩ := inv.edge_idx e he hx2
      refine ⟨List.mem_append_left _ hsrc, ?_⟩
      rw [List.indexOf_append_of_mem hsrc, List.indexOf_append_of_mem hx2]
      exact hlt
    · rw [List.mem_singleton] at hx2
      have hsrc : e.source ∈ ord.map (·.id) :=
        inv.edge_done e he (List.mem_append_right _ (hx2 ▸ List.mem_cons_self _ _))
      refine ⟨List.mem_append_left _ hsrc, ?_⟩
      rw [List.indexOf_append_of_mem hsrc, hx2,
        List.indexOf_append_of_not_mem hidnotdone]
      have hlt := List.indexOf_lt_length.mpr hsrc
      rw [List.indexOf_cons_self]
      omega

/-- With enough fuel the loop drains the queue while keeping the
invariant; `nodes.length + 1` always suffices. -/
theorem kahnLoop_spec (w : WorkflowDef) (hv : ValidGraph w) :
    ∀ (fuel : Nat) (queue : List String) (cnt : String → Int) (ord : List NodeDef),
      KahnInv w queue cnt ord →
      (nodeIds w).length - ord.length < fuel →
      ∃ cntF, KahnInv w [] cntF
        (kahnLoop w.nodes (adjacencyMap w.edges) fuel queue cnt ord) := by
  intro fuel
  induction fuel with
  | zero => intro queue cnt ord inv hfuel; omega
  | succ fuel ih =>
      intro queue cnt ord inv hfuel
      cases queue with
      | nil => exact ⟨cnt, by simpa [kahnLoop] using inv⟩
      | cons id rest =>
          obtain ⟨n, hfind, hnid, inv'⟩ := kahnInv_step w hv id rest cnt ord inv
          have hlen : ord.length + 1 ≤ (nodeIds w).length := by
            have hnd : ((ord ++ [n]).map (·.id)).Nodup :=
              (List.nodup_append.mp inv'.nodup).1
            have hsub : ((ord ++ [n]).map (·.id)) ⊆ nodeIds w := by
              intro x hx
              exact inv'.mem_ids x (List.mem_append_left _ hx)
            have hle := (List.subperm_of_subset hnd hsub).length_le
            simpa using hle
          have hrun : kahnLoop w.nodes (adjacencyMap w.edges) (fuel + 1) (id :: rest) cnt ord =
              kahnLoop w.nodes (adjacencyMap w.edges) fuel
                (processDownstream (adjacencyMap w.edges id) cnt rest).2
                (processDownstream (adjacencyMap w.edges id) cnt rest).1
                (ord ++ [n]) := by
            simp [kahnLoop, hfind]
          rw [hrun]
          refine ih _ _ _ inv' ?_
          simp only [List.length_append, List.length_cons, List.length_nil]
          omega


/-- Along the dependency relation, predecessors of scheduled nodes are
scheduled earlier. -/
theorem transGen_mem_done (w : WorkflowDef) (cntF : String → Int) (ordF : List NodeDef)
    (inv : KahnInv w [] cntF ordF) :
    ∀ a b, Relation.TransGen (EdgeStep w) a b → b ∈ ordF.map (·.id) →
      a ∈ ordF.map (·.id) ∧
        (ordF.map (·.id)).indexOf a < (ordF.map (·.id)).indexOf b := by
  intro a b h
  induction h with
  | single hr =>
      intro hb
      obtain ⟨e, he, hsrc, htgt⟩ := hr
      have hidx := inv.edge_idx e he (htgt ▸ hb)
      rw [hsrc, htgt] at hidx
      exact hidx
  | tail hab hbc ih =>
      intro hc
      obtain ⟨e, he, hsrc, htgt⟩ := hbc
      have hidx := inv.edge_idx e he (htgt ▸ hc)
      rw [hsrc, htgt] at hidx
      obtain ⟨hbmem, hlt⟩ := hidx
      obtain ⟨hamem, hlt2⟩ := ih hbmem
      exact ⟨hamem, by omega⟩

/-- The source of any dependency path is a node id. -/
theorem transGen_source_mem (w : WorkflowDef) (hv : ValidGraph w) {a b : String}
    (h : Relation.TransGen (EdgeStep w) a b) : a ∈ nodeIds w := by
  induction h with
  | single hr =>
      obtain ⟨e, he, hsrc, -⟩ := hr
      exact hsrc ▸ hv.sourceMem e he
  | tail hab hbc ih => exact ih

/-- On an acyclic graph the drained loop has scheduled every node: an
unscheduled node would have an unscheduled predecessor, which by
pigeonhole yields a dependency cycle. -/
theorem all_scheduled_of_acyclic (w : WorkflowDef) (hv : ValidGraph w)
    (hac : Acyclic w) (cntF : String → Int) (ordF : List NodeDef)
    (inv : KahnInv w [] cntF ordF) : ∀ x ∈ nodeIds w, x ∈ ordF.map (·.id) := by
  by_contra hcon
  push_neg at hcon
  obtain ⟨x, hxids, hxnot⟩ := hcon
  have hpred : ∀ s, s ∈ nodeIds w → s ∉ ordF.map (·.id) →
      ∃ t, t ∈ nodeIds w ∧ t ∉ ordF.map (·.id) ∧ EdgeStep w t s := by
    intro s hs hsnot
    have hnz : cntF s ≠ 0 := by
      intro hz
      have hmem := (inv.zero_iff s hs).mp hz
      simp only [List.append_nil] at hmem
      exact hsnot hmem
    have hcnt := inv.cnt_eq s hs
    have hscount : scount w (ordF.map (·.id)) s ≠ 0 := by
      intro hz
      rw [hz] at hcnt
      simp only [Nat.cast_zero] at hcnt
      exact hnz hcnt
    have hexists : ∃ e ∈ w.edges,
        (e.target == s && !(decide (e.source ∈ ordF.map (·.id)))) = true := by
      by_contra hno
      push_neg at hno
      apply hscount
      rw [scount, List.countP_eq_zero]
      intro e he
      simp only [Bool.not_eq_true]
      by_contra hh
      rw [Bool.not_eq_false] at hh
      exact (hno e he) hh
    obtain ⟨e, he, hprop⟩ := hexists
    simp only [Bool.and_eq_true, beq_iff_eq, Bool.not_eq_true',
      decide_eq_false_iff_not] at hprop
    exact ⟨e.source, hv.sourceMem e he, hprop.2, ⟨e, he, rfl, hprop.1⟩⟩
  have hstep : ∀ s : {s : String // s ∈ nodeIds w ∧ s ∉ ordF.map (·.id)},
      ∃ t : {s : String // s ∈ nodeIds w ∧ s ∉ ordF.map (·.id)},
        EdgeStep w t.1 s.1 := by
    rintro ⟨s, hs1, hs2⟩
    obtain ⟨t, ht1, ht2, ht3⟩ := hpred s hs1 hs2
    exact ⟨⟨t, ht1, ht2⟩, ht3⟩
  let seq : Nat → {s : String // s ∈ nodeIds w ∧ s ∉ ordF.map (·.id)} := fun n =>
    Nat.rec ⟨x, hxids, hxnot⟩ (fun _ prev => Classical.choose (hstep prev)) n
  have hseq : ∀ n, EdgeStep w (seq (n + 1)).1 (seq n).1 := fun n =>
    Classical.choose_spec (hstep (seq n))
  have hchain : ∀ i j, i < j → Relation.TransGen (EdgeStep w) (seq j).1 (seq i).1 := by
    intro i j
    induction j with
    | zero => intro h; omega
    | succ j ihj =>
        intro hij
        rcases Nat.lt_succ_iff_lt_or_eq.mp hij with h | h
        · exact Relation.TransGen.head (hseq j) (ihj h)
        · subst h
          exact Relation.TransGen.single (hseq i)
  have hmapsto : ∀ m ∈ Finset.range ((nodeIds w).length + 1),
      (seq m).1 ∈ (nodeIds w).toFinset := by
    intro m _
    exact List.mem_toFinset.mpr (seq m).2.1
  have hcard : (nodeIds w).toFinset.card < (Finset.range ((nodeIds w).length + 1)).card := by
    rw [Finset.card_range]
    exact Nat.lt_succ_of_le (List.toFinset_card_le _)
  obtain ⟨i, hi, j, hj, hij, heq⟩ :=
    Finset.exists_ne_map_eq_of_card_lt_of_maps_to hcard hmapsto
  rcases Nat.lt_or_ge i j with hlt | hge
  · refine hac (seq i).1 ?_
    nth_rewrite 1 [heq]
    exact hchain i j hlt
  · have hlt : j < i := lt_of_le_of_ne hge (fun h => hij h.symm)
    refine hac (seq j).1 ?_
    nth_rewrite 1 [← heq]
    exact hchain j i hlt

/-- C1: for a validated graph whose edges form an acyclic relation,
`_build_execution_plan` returns an order containing every node exactly
once in which each edge's source precedes its target (plus the incoming
map); for a graph with a dependency cycle it raises the single
`GraphUnschedulable` error `workflow contains cycles or unresolved
dependencies` and returns no partial order. -/
theorem c1_build_execution_plan (w : WorkflowDef) (hv : ValidGraph w) :
    (Acyclic w →
      ∃ order, buildExecutionPlan w = .ok (order, incomingMap w.edges) ∧
        order.Nodup ∧ (∀ n ∈ w.nodes, n ∈ order) ∧ (∀ n ∈ order, n ∈ w.nodes) ∧
        ∀ e ∈ w.edges,
          (order.map (·.id)).indexOf e.source < (order.map (·.id)).indexOf e.target) ∧
    (¬ Acyclic w →
      buildExecutionPlan w =
        .error "workflow contains cycles or unresolved dependencies") := by
  obtain ⟨cntF, inv⟩ := kahnLoop_spec w hv (w.nodes.length + 1)
    ((nodeIds w).filter (fun id => initialCounts w.edges id == 0))
    (initialCounts w.edges) [] (kahnInv_init w hv)
    (by simp only [nodeIds, List.length_map, List.length_nil]; omega)
  set ordF := kahnLoop w.nodes (adjacencyMap w.edges) (w.nodes.length + 1)
    ((nodeIds w).filter (fun id => initialCounts w.edges id == 0))
    (initialCounts w.edges) [] with hordF
  have hplan : buildExecutionPlan w =
      (if ordF.length ≠ w.nodes.length then
        Except.error "workflow contains cycles or unresolved dependencies"
      else Except.ok (ordF, incomingMap w.edges)) := rfl
  have hnd : (ordF.map (·.id)).Nodup := by
    have := inv.nodup
    simpa using this
  have hlenmap : (ordF.map (·.id)).length = ordF.length := List.length_map _ _
  have hlennodes : (nodeIds w).length = w.nodes.length := List.length_map _ _
  constructor
  · intro hac
    have hall := all_scheduled_of_acyclic w hv hac cntF ordF inv
    have hsub : (ordF.map (·.id)) ⊆ nodeIds w := by
      intro y hy
      exact inv.mem_ids y (by simpa using hy)
    have hle1 := (List.subperm_of_subset hnd hsub).length_le
    have hle2 := (List.subperm_of_subset hv.nodup (fun y hy => hall y hy)).length_le
    have hlen : ordF.length = w.nodes.length := by omega
    refine ⟨ordF, ?_, List.Nodup.of_map _ hnd, ?_, inv.ordMem, ?_⟩
    · rw [hplan, if_neg (by omega)]
    · intro n hn
      have hid : n.id ∈ ordF.map (·.id) := hall n.id (List.mem_map_of_mem _ hn)
      obtain ⟨m, hm, hmid⟩ := List.mem_map.mp hid
      have hmn : m = n :=
        List.inj_on_of_nodup_map hv.nodup (inv.ordMem m hm) hn hmid
      exact hmn ▸ hm
    · intro e he
      have htgt : e.target ∈ ordF.map (·.id) := hall _ (hv.targetMem e he)
      exact (inv.edge_idx e he htgt).2
  · intro hnac
    simp only [Acyclic, not_forall, not_not] at hnac
    obtain ⟨z, hz⟩ := hnac
    have hzids : z ∈ nodeIds w := transGen_source_mem w hv hz
    have hznot : z ∉ ordF.map (·.id) := by
      intro hmem
      exact absurd (transGen_mem_done w cntF ordF inv z z hz hmem).2 (lt_irrefl _)
    have hnd2 : (z :: ordF.map (·.id)).Nodup := List.nodup_cons.mpr ⟨hznot, hnd⟩
    have hsub2 : (z :: ordF.map (·.id)) ⊆ nodeIds w := by
      intro y hy
      rcases List.mem_cons.mp hy with hy | hy
      · exact hy ▸ hzids
      · exact inv.mem_ids y (by simpa using hy)
    have hle := (List.subperm_of_subset hnd2 hsub2).length_le
    simp only [List.length_cons] at hle
    rw [hplan, if_pos (by omega)]

/-- A concrete validated two-node graph with the single edge a → b. -/
def witGraph : WorkflowDef :=
  ⟨[⟨"a", "task", Option.none⟩, ⟨"b", "task", Option.none⟩], [⟨"a", "b"⟩]⟩

theorem witGraph_acyclic : Acyclic witGraph := by
  have hstep : ∀ a b, EdgeStep witGraph a b → a = "a" ∧ b = "b" := by
    rintro a b ⟨e, he, hsrc, htgt⟩
    have he2 : e = ⟨"a", "b"⟩ := List.mem_singleton.mp he
    subst he2
    exact ⟨hsrc.symm, htgt.symm⟩
  intro z hz
  have htg : ∀ x y, Relation.TransGen (EdgeStep witGraph) x y → x = "a" ∧ y = "b" := by
    intro x y h
    induction h with
    | single hr => exact hstep _ _ hr
    | tail hab hbc ih =>
        obtain ⟨h1, h2⟩ := ih
        obtain ⟨h3, h4⟩ := hstep _ _ hbc
        rw [h2] at h3
        exact absurd h3 (by decide)
  obtain ⟨h1, h2⟩ := htg z z hz
  rw [h1] at h2
  exact absurd h2 (by decide)

/-- Witness for C1: the plan of the concrete acyclic graph. -/
theorem c1_build_execution_plan_witness :
    ∃ order, buildExecutionPlan witGraph = .ok (order, incomingMap witGraph.edges) ∧
      order.Nodup ∧ (∀ n ∈ witGraph.nodes, n ∈ order) ∧
      (∀ n ∈ order, n ∈ witGraph.nodes) ∧
      ∀ e ∈ witGraph.edges,
        (order.map (·.id)).indexOf e.source < (order.map (·.id)).indexOf e.target :=
  (c1_build_execution_plan witGraph
    ⟨by decide, by decide, by decide⟩).1 witGraph_acyclic


/-! ## run_manager.WorkflowRunStore._execute_run (C3) -/

/-- The keyword parameters `DatapizzaWorkflowExecutor.run` declares beyond
the positional workflow: only `options` (and likewise
`RemoteWorkflowExecutor.run`); there is no `observer` parameter and no
`**kwargs` catch-all. -/
def executorRunKeywords : List String := ["options"]

/-- The keywords `WorkflowRunStore._execute_run` passes in
`executor.run(record.workflow, options=record.options, observer=emit)`. -/
def executeRunCallKeywords : List String := ["options", "observer"]

/-- A Python keyword call binds only if every passed keyword is declared
(there being no var-keyword catch-all); otherwise the call raises
`TypeError` before the callee body runs. -/
def keywordCallOk (declared passed : List String) : Bool :=
  passed.all (fun k => declared.contains k)

/-- The run-record fields `_execute_run` can touch. -/
structure RunRecordModel where
  status : String
  steps : List (String × String)
  error : Option String
  deriving Repr

/-- `start_run` pre-populates one pending step per node, status `running`. -/
def startRunRecord (nodes : List NodeDef) : RunRecordModel :=
  ⟨"running", nodes.map (fun n => (n.id, "pending")), Option.none⟩

/-- Embedding of `WorkflowRunStore._execute_run` on a local executor whose
drive loop, were it reached, would finish with `wouldBeStatus` and step
states `wouldBeSteps`: the call binds its keywords first; an unexpected
keyword raises `TypeError`, which the defensive `except Exception` handler
converts into `_fail_run` (status `failure`, error message recorded, step
states untouched). -/
def executeRunModel (record : RunRecordModel) (wouldBeStatus : String)
    (wouldBeSteps : List (String × String)) : RunRecordModel :=
  if keywordCallOk executorRunKeywords executeRunCallKeywords then
    { record with status := wouldBeStatus, steps := wouldBeSteps }
  else
    { record with
      status := "failure"
      error := Option.some "run() got an unexpected keyword argument 'observer'" }

/-- C3 (refuted by the code): `_execute_run` passes `observer=emit` to
`DatapizzaWorkflowExecutor.run`, which declares no such keyword, so the
call raises `TypeError` before the executor runs; the handler marks the
run `failure` and no step is ever updated — even for a workflow whose
every node would execute successfully. The executor also never invokes
any event callback (its `run` has no observer parameter at all). -/
theorem c3_run_lifecycle_observer_bug (nodes : List NodeDef) :
    keywordCallOk executorRunKeywords executeRunCallKeywords = false ∧
    (executeRunModel (startRunRecord nodes) "success"
        (nodes.map (fun n => (n.id, "completed")))).status = "failure" ∧
    (executeRunModel (startRunRecord nodes) "success"
        (nodes.map (fun n => (n.id, "completed")))).steps =
      nodes.map (fun n => (n.id, "pending")) ∧
    (executeRunModel (startRunRecord nodes) "success"
        (nodes.map (fun n => (n.id, "completed")))).error =
      Option.some "run() got an unexpected keyword argument 'observer'" :=
  ⟨rfl, rfl, rfl, rfl⟩


end Datapizza
